import Mathlib

/-!
# Verification of the feature-management MCP server core

Shallow embedding of `src/mcp_server/feature_mcp.py`: a priority-ordered
backlog of `Feature` records stored in a single table, with query
operations (stats, next, regression sample, categories, summary, search)
and mutation operations (mark passing, skip, bulk create).

The persistent store is modelled as a `List Feature` (the table's rows).
SQL `ORDER BY` scans are modelled with `List.insertionSort` under the
corresponding decidable relation; `.first()` is `List.head?` of the
ordered scan.  The database guarantees a unique primary key, which
appears as the hypothesis `(store.map Feature.id).Nodup` where a theorem
needs it.  Each tool call is one transaction: a call that returns an
error before `session.commit()` leaves the store unchanged.

The float arithmetic of `feature_get_stats` is modelled faithfully:
`passing / total` and the subsequent `* 100` are IEEE-754 binary64
operations, embedded by `floatRound` (correct rounding to 53 significant
bits, ties to even, over `ℚ`); Python's `round(x, 1)` correctly rounds
the exact decimal value of the double `x` to one decimal digit
(`round1`), and the JSON serialization of the resulting double is
exactly that decimal (shortest round-trip `repr`), which is the value
the model returns.
-/

namespace FeatureMCP

/-- A row of the `features` table (`api.database.Feature`). -/
structure Feature where
  id : Nat
  priority : Int
  category : String
  name : String
  description : String
  steps : List String
  passes : Bool
  source : String
  batch_id : Option String
deriving Repr, DecidableEq

/-- The persistent store: the rows of the single `features` table. -/
abbrev Store := List Feature

/-! ## Ordered scans

`ORDER BY priority ASC, id ASC` in `feature_get_next`, and
`ORDER BY priority ASC` in `feature_search`. -/

/-- The `(priority, id)` lexicographic order used by
`order_by(Feature.priority.asc(), Feature.id.asc())`. -/
def keyLE (f g : Feature) : Prop :=
  f.priority < g.priority ∨ (f.priority = g.priority ∧ f.id ≤ g.id)

instance : DecidableRel keyLE := fun f g => by
  unfold keyLE; infer_instance

instance : IsTotal Feature keyLE where
  total f g := by unfold keyLE; omega

instance : IsTrans Feature keyLE where
  trans f g h := by unfold keyLE; omega

/-- The priority order used by `order_by(Feature.priority.asc())`. -/
def prioLE (f g : Feature) : Prop :=
  f.priority ≤ g.priority

instance : DecidableRel prioLE := fun f g => by
  unfold prioLE; infer_instance

instance : IsTotal Feature prioLE where
  total f g := by unfold prioLE; omega

instance : IsTrans Feature prioLE where
  trans f g h := by unfold prioLE; omega

/-- `session.query(Feature.priority).order_by(Feature.priority.desc()).first()`:
`none` iff the table is empty, otherwise the maximum priority over ALL rows. -/
def maxPriority : Store → Option Int
  | [] => none
  | f :: fs =>
    some (match maxPriority fs with
          | none => f.priority
          | some m => max f.priority m)

/-- The pending rows: `filter(Feature.passes == False)`. -/
def pendingRows (store : Store) : Store :=
  store.filter (fun f => !f.passes)

/-- `query(Feature.priority).filter(passes == False).order_by(priority.asc()).first()`:
`none` iff no pending row exists, otherwise the minimum priority over pending rows. -/
def minPendingPriority : Store → Option Int
  | [] => none
  | f :: fs =>
    if f.passes then minPendingPriority fs
    else
      some (match minPendingPriority fs with
            | none => f.priority
            | some m => min f.priority m)

/-! ## Query engine -/

/-- Result of `feature_get_stats`.  `percentage` is exact rational
arithmetic in place of Python floats. -/
structure Stats where
  passing : Nat
  total : Nat
  percentage : ℚ
deriving Repr, DecidableEq

/-- Round a rational to the nearest integer, ties to even
(the semantics of Python's `round`). -/
def roundHalfEven (q : ℚ) : ℤ :=
  let f := ⌊q⌋
  if q - f < 1/2 then f
  else if 1/2 < q - f then f + 1
  else if f % 2 = 0 then f else f + 1

/-- Rounding a value to one decimal place with ties to even: Python's
`round(x, 1)` correctly rounds the exact (decimal) value of the double
`x`, and the result, re-read as a double, serializes back to exactly
this decimal. -/
def round1 (q : ℚ) : ℚ :=
  (roundHalfEven (q * 10) : ℚ) / 10

/-- IEEE-754 binary64 rounding (round to nearest, ties to even) of an
exact rational: the mantissa `|q| / 2 ^ (log₂|q| - 52)` lies in
`[2^52, 2^53)` and is rounded to an integer half-to-even.  The exponent
is unbounded — every value arising in this development is far inside
binary64's normal range, so overflow and subnormals do not occur. -/
def floatRound (q : ℚ) : ℚ :=
  if q = 0 then 0
  else
    (if q < 0 then (-1 : ℚ) else 1) *
      ((roundHalfEven (|q| / 2 ^ (Int.log 2 |q| - 52)) : ℚ) *
        2 ^ (Int.log 2 |q| - 52))

/-- `feature_get_stats`: total count, passing count, and
`round((passing / total) * 100, 1)` computed as the program computes it
(or `0.0` for an empty table): `passing / total` is float division of
two ints and `* 100` a float multiplication — one binary64 rounding
each — and `round(·, 1)` decimally rounds the resulting double. -/
def feature_get_stats (store : Store) : Stats :=
  let total := store.length
  let passing := (store.filter (fun f => f.passes)).length
  { passing := passing
    total := total
    percentage :=
      if total > 0 then
        round1 (floatRound (floatRound ((passing : ℚ) / (total : ℚ)) * 100))
      else 0 }

/-- `feature_get_next`: first row of the pending rows ordered by
`(priority ASC, id ASC)`; `none` models the "All features are passing!
No more work to do." result. -/
def feature_get_next (store : Store) : Option Feature :=
  ((pendingRows store).insertionSort keyLE).head?

/-! ## Search -/

/-- One rendered search result: `{id, name, category, passes}`. -/
structure SearchRow where
  id : Nat
  name : String
  category : String
  passes : Bool
deriving Repr, DecidableEq

/-- Render a feature as a search result row. -/
def renderRow (f : Feature) : SearchRow :=
  { id := f.id, name := f.name, category := f.category, passes := f.passes }

/-- Case-insensitive character comparison, as in SQL `ILIKE`
(ASCII lower-casing, as SQLite's `lower`). -/
def ciEq (a b : Char) : Bool :=
  a.toLower == b.toLower

/-- Try a predicate on every suffix of the input: the semantics of a
leading `%` in a `LIKE` pattern. -/
def likeSuffix (lm : List Char → Bool) : List Char → Bool
  | [] => lm []
  | d :: s' => lm (d :: s') || likeSuffix lm s'

/-- SQL `LIKE` pattern matching, case-insensitive (`ILIKE`): `%` matches
any sequence of characters, `_` matches exactly one character, any other
pattern character matches one input character up to case. -/
def likeMatch : List Char → List Char → Bool
  | [], s => s.isEmpty
  | c :: p, s =>
    if c = '%' then likeSuffix (likeMatch p) s
    else
      match s with
      | [] => false
      | d :: s' => (c = '_' || ciEq c d) && likeMatch p s'

/-- The pattern `f"%{query}%"` passed to `ilike`. -/
def likePattern (q : String) : List Char :=
  '%' :: (q.data ++ ['%'])

/-- The filter of `feature_search`:
`name.ilike(f"%{query}%") | description.ilike(f"%{query}%")`. -/
def matchesQuery (q : String) (f : Feature) : Bool :=
  likeMatch (likePattern q) f.name.data || likeMatch (likePattern q) f.description.data

/-- `feature_search`: filter by the `ilike` disjunction, order by
priority ascending, truncate to `limit`, render, and report the count of
returned rows. -/
def feature_search (store : Store) (q : String) (limit : Nat) :
    List SearchRow × Nat :=
  let fs := ((store.filter (matchesQuery q)).insertionSort prioLE).take limit
  (fs.map renderRow, fs.length)

/-! ## Mutation engine -/

/-- Result of `feature_mark_passing`. -/
inductive MarkResult where
  | notFound
  | ok (feature : Feature)
deriving Repr, DecidableEq

/-- `feature_mark_passing`: look the row up by id; absent → NotFound
error with no change; present → set `passes := True`, commit, and return
the updated record. -/
def feature_mark_passing (store : Store) (fid : Nat) : MarkResult × Store :=
  match store.find? (fun f => f.id == fid) with
  | none => (.notFound, store)
  | some f =>
    (.ok { f with passes := true },
     store.map (fun g => if g.id == fid then { g with passes := true } else g))

/-- Result of `feature_skip`. -/
inductive SkipResult where
  | notFound
  | invalidState
  | ok (id : Nat) (name : String) (old_priority new_priority : Int)
deriving Repr, DecidableEq

/-- `feature_skip`: absent → NotFound; `passes=true` → InvalidState
("Cannot skip a feature that is already passing"), no change; otherwise
set the row's priority to `max_priority + 1` (max over ALL rows; `1` if
the scan returns no row) and return
`{id, name, old_priority, new_priority}`. -/
def feature_skip (store : Store) (fid : Nat) : SkipResult × Store :=
  match store.find? (fun f => f.id == fid) with
  | none => (.notFound, store)
  | some f =>
    if f.passes then (.invalidState, store)
    else
      let newP := match maxPriority store with
                  | some m => m + 1
                  | none => 1
      (.ok f.id f.name f.priority newP,
       store.map (fun g => if g.id == fid then { g with priority := newP } else g))

/-! ## Bulk create -/

/-- One raw item of the `features: list[dict]` argument of
`feature_create_bulk`: each required key may be present or missing. -/
structure RawItem where
  category : Option String
  name : Option String
  description : Option String
  steps : Option (List String)
deriving Repr, DecidableEq

/-- The per-item validation
`all(key in feature_data for key in ["category", "name", "description", "steps"])`. -/
def validItem (it : RawItem) : Bool :=
  it.category.isSome && it.name.isSome && it.description.isSome && it.steps.isSome

/-- Index of the first item failing validation, if any: the loop in
`feature_create_bulk` returns the error for the first such index. -/
def firstInvalid : List RawItem → Option Nat
  | [] => none
  | it :: rest =>
    if validItem it then (firstInvalid rest).map (· + 1) else some 0

/-- The `Feature` row constructed for the item at offset `i` of the
batch: priority `start_priority + i`, `passes=False`, the caller's
`source` and `batch_id`, and the next autoincrement id. -/
def mkFeature (start : Int) (nid : Nat) (source : String) (bid : Option String)
    (i : Nat) (it : RawItem) : Feature :=
  { id := nid + i
    priority := start + i
    category := it.category.getD ""
    name := it.name.getD ""
    description := it.description.getD ""
    steps := it.steps.getD []
    passes := false
    source := source
    batch_id := bid }

/-- The rows added by the creation loop, in input order, with
consecutive priorities from `start + i` and ids from `nid + i`. -/
def mkFeatures (start : Int) (nid : Nat) (source : String) (bid : Option String) :
    Nat → List RawItem → List Feature
  | _, [] => []
  | i, it :: rest =>
    mkFeature start nid source bid i it :: mkFeatures start nid source bid (i + 1) rest

/-- The append-mode starting priority:
`(max_priority + 1) if max_priority_result else 1`. -/
def appendStart (store : Store) : Int :=
  match maxPriority store with
  | some m => m + 1
  | none => 1

/-- The starting priority chosen by `feature_create_bulk`: in prepend
mode, `min(pending priority) - len(features)` when a pending row exists,
otherwise the append-mode start; in any other mode the append-mode
start. -/
def bulkStart (store : Store) (mode : String) (count : Nat) : Int :=
  if mode = "prepend" then
    match minPendingPriority store with
    | some p => p - count
    | none => appendStart store
  else appendStart store

/-- Result of `feature_create_bulk`. -/
inductive BulkResult where
  | error (index : Nat)
  | ok (created : Nat) (start_priority : Int)
deriving Repr, DecidableEq

/-- `feature_create_bulk`: compute the start priority from the mode,
validate items in input order — the first invalid index aborts the call
before `session.commit()`, so the store is unchanged — otherwise add one
row per item with consecutive priorities and commit.  `nid` is the next
autoincrement id of the table. -/
def feature_create_bulk (store : Store) (items : List RawItem)
    (mode source : String) (bid : Option String) (nid : Nat) :
    BulkResult × Store :=
  let start := bulkStart store mode items.length
  match firstInvalid items with
  | some i => (.error i, store)
  | none =>
    (.ok items.length start, store ++ mkFeatures start nid source bid 0 items)

/-! ## The operations as state transformers

Only `feature_mark_passing`, `feature_skip` and `feature_create_bulk`
write to the store; every other tool is a read-only query (the random
`ORDER BY` of `feature_get_for_regression` affects only the returned
sample, never the table). -/

/-- One tool invocation, as far as the store's state is concerned. -/
inductive Op where
  | getStats
  | getNext
  | getForRegression (limit : Nat)
  | getAllCategories
  | getSummary
  | search (q : String) (limit : Nat)
  | markPassing (fid : Nat)
  | skip (fid : Nat)
  | createBulk (items : List RawItem) (mode source : String)
      (bid : Option String) (nid : Nat)
deriving Repr, DecidableEq

/-- The store after one tool invocation. -/
def applyOp (store : Store) : Op → Store
  | .getStats => store
  | .getNext => store
  | .getForRegression _ => store
  | .getAllCategories => store
  | .getSummary => store
  | .search _ _ => store
  | .markPassing fid => (feature_mark_passing store fid).2
  | .skip fid => (feature_skip store fid).2
  | .createBulk items mode source bid nid =>
    (feature_create_bulk store items mode source bid nid).2

/-- The store after a sequence of tool invocations. -/
def applyOps (store : Store) : List Op → Store
  | [] => store
  | op :: ops => applyOps (applyOp store op) ops

/-! ## Helper lemmas -/

theorem maxPriority_eq_none_iff {store : Store} :
    maxPriority store = none ↔ store = [] := by
  cases store <;> simp [maxPriority]

theorem le_maxPriority {store : Store} {f : Feature} {m : Int}
    (hf : f ∈ store) (hm : maxPriority store = some m) : f.priority ≤ m := by
  induction store generalizing m with
  | nil => cases hf
  | cons g rest ih =>
    simp only [maxPriority] at hm
    rcases List.mem_cons.1 hf with rfl | hf'
    · cases hrest : maxPriority rest <;> simp [hrest] at hm <;> omega
    · cases hrest : maxPriority rest with
      | none =>
        rcases maxPriority_eq_none_iff.1 hrest with rfl
        cases hf'
      | some m' =>
        have := ih hf' hrest
        simp [hrest] at hm
        omega

theorem minPendingPriority_eq_none_iff {store : Store} :
    minPendingPriority store = none ↔ ∀ f ∈ store, f.passes = true := by
  induction store with
  | nil => simp [minPendingPriority]
  | cons g rest ih =>
    simp only [minPendingPriority]
    by_cases hg : g.passes
    · rw [if_pos hg]
      simp [ih, hg]
    · rw [if_neg hg]
      constructor
      · intro h; simp at h
      · intro h
        exact absurd (h g (List.mem_cons_self g rest)) (by simpa using hg)

theorem minPendingPriority_le {store : Store} {f : Feature} {p : Int}
    (hf : f ∈ store) (hpend : f.passes = false)
    (hp : minPendingPriority store = some p) : p ≤ f.priority := by
  induction store generalizing p with
  | nil => cases hf
  | cons g rest ih =>
    simp only [minPendingPriority] at hp
    rcases List.mem_cons.1 hf with rfl | hf'
    · rw [hpend] at hp
      simp at hp
      cases hrest : minPendingPriority rest <;> simp [hrest] at hp <;> omega
    · by_cases hg : g.passes
      · rw [if_pos hg] at hp
        exact ih hf' hp
      · rw [if_neg hg] at hp
        cases hrest : minPendingPriority rest with
        | none =>
          have := minPendingPriority_eq_none_iff.1 hrest f hf'
          rw [this] at hpend; cases hpend
        | some m' =>
          have := ih hf' hrest
          simp [hrest] at hp
          omega

theorem mem_pendingRows {store : Store} {f : Feature} :
    f ∈ pendingRows store ↔ f ∈ store ∧ f.passes = false := by
  simp [pendingRows, List.mem_filter]

/-- A row whose id occurs nowhere in the table is not found. -/
theorem find_id_eq_none {store : Store} {fid : Nat}
    (h : ∀ f ∈ store, f.id ≠ fid) :
    store.find? (fun g => g.id == fid) = none := by
  rw [List.find?_eq_none]
  intro f hf
  simp [h f hf]

/-- With a unique primary key, lookup by id finds exactly the member row
carrying that id. -/
theorem find_id_eq_some {store : Store} {f : Feature} {fid : Nat}
    (hnd : (store.map Feature.id).Nodup) (hf : f ∈ store) (hid : f.id = fid) :
    store.find? (fun g => g.id == fid) = some f := by
  induction store with
  | nil => cases hf
  | cons g rest ih =>
    simp only [List.map_cons, List.nodup_cons] at hnd
    rcases List.mem_cons.1 hf with rfl | hf'
    · simp [List.find?_cons, hid]
    · have hne : ¬(g.id == fid) = true := by
        simp only [beq_iff_eq]
        intro hgid
        exact hnd.1 (by rw [hgid, ← hid]; exact List.mem_map_of_mem Feature.id hf')
      have hstep :
          List.find? (fun g => g.id == fid) (g :: rest)
            = List.find? (fun g => g.id == fid) rest :=
        List.find?_cons_of_neg rest hne
      rw [hstep]
      exact ih hnd.2 hf'

/-- Two members of a table with a unique primary key and the same id are
the same row. -/
theorem eq_of_id_eq {store : Store} {f g : Feature}
    (hnd : (store.map Feature.id).Nodup) (hf : f ∈ store) (hg : g ∈ store)
    (hid : f.id = g.id) : f = g :=
  List.inj_on_of_nodup_map hnd hf hg hid

/-- The first row of an ordered scan is a member and is `r`-below every
row of the table. -/
theorem head_insertionSort {α : Type} {r : α → α → Prop} [DecidableRel r]
    [IsTotal α r] [IsTrans α r] {l : List α} {a : α}
    (h : (l.insertionSort r).head? = some a) :
    a ∈ l ∧ ∀ b ∈ l, r a b := by
  have hp := List.perm_insertionSort r l
  have hs := List.sorted_insertionSort r l
  cases hsort : l.insertionSort r with
  | nil => rw [hsort] at h; cases h
  | cons x rest =>
    rw [hsort] at h hp hs
    have hax : x = a := by simpa using h
    subst hax
    refine ⟨hp.subset (List.mem_cons_self x rest), fun b hb => ?_⟩
    rcases List.mem_cons.1 (hp.symm.subset hb) with rfl | hb'
    · exact (IsTotal.total b b).elim id id
    · exact List.rel_of_sorted_cons hs b hb'

/-- An ordered scan returns no first row iff the scanned set is empty. -/
theorem head_insertionSort_eq_none {α : Type} {r : α → α → Prop} [DecidableRel r]
    {l : List α} :
    (l.insertionSort r).head? = none ↔ l = [] := by
  rw [List.head?_eq_none_iff]
  constructor
  · intro h
    have := List.length_insertionSort r l
    rw [h] at this
    exact List.length_eq_zero.1 this.symm
  · rintro rfl; rfl

theorem roundHalfEven_eq_down {q : ℚ} {n : ℤ} (hfl : ⌊q⌋ = n)
    (h : q - (n : ℚ) < 1/2) : roundHalfEven q = n := by
  simp only [roundHalfEven, hfl]
  rw [if_pos h]

theorem roundHalfEven_eq_up {q : ℚ} {n : ℤ} (hfl : ⌊q⌋ = n)
    (h : 1/2 < q - (n : ℚ)) : roundHalfEven q = n + 1 := by
  simp only [roundHalfEven, hfl]
  rw [if_neg (by linarith), if_pos h]

theorem roundHalfEven_tie_even {q : ℚ} {n : ℤ} (hfl : ⌊q⌋ = n)
    (h : q - (n : ℚ) = 1/2) (he : n % 2 = 0) : roundHalfEven q = n := by
  simp only [roundHalfEven, hfl]
  rw [if_neg (by rw [h]; exact lt_irrefl _), if_neg (by rw [h]; exact lt_irrefl _),
    if_pos he]

/-- `Int.log 2` is pinned by the power-of-two sandwich. -/
theorem log2_eq_of_bounds {q : ℚ} {e : ℤ} (h1 : (2:ℚ) ^ e ≤ q)
    (h2 : q < (2:ℚ) ^ (e + 1)) : Int.log 2 q = e := by
  have hq : 0 < q := lt_of_lt_of_le (by positivity) h1
  have ha := Int.zpow_log_le_self (R := ℚ) (b := 2) one_lt_two hq
  have hb := Int.lt_zpow_succ_log_self (R := ℚ) (b := 2) one_lt_two q
  push_cast at ha hb
  by_contra hne
  rcases lt_or_gt_of_ne hne with hlt | hgt
  · have hle : Int.log 2 q + 1 ≤ e := Int.add_one_le_iff.2 hlt
    have := zpow_le_zpow_right₀ (one_le_two (α := ℚ)) hle
    linarith
  · have hle : e + 1 ≤ Int.log 2 q := Int.add_one_le_iff.2 hgt
    have := zpow_le_zpow_right₀ (one_le_two (α := ℚ)) hle
    linarith

/-- Unfold `floatRound` at a positive input whose binary exponent is
known. -/
theorem floatRound_pos {q : ℚ} (hq : 0 < q) {e : ℤ} (hlog : Int.log 2 q = e) :
    floatRound q = (roundHalfEven (q / 2 ^ (e - 52)) : ℚ) * 2 ^ (e - 52) := by
  rw [floatRound, if_neg hq.ne', if_neg (not_lt.2 hq.le), abs_of_pos hq, hlog,
    one_mul]

theorem mkFeatures_length {start : Int} {nid : Nat} {src : String}
    {bid : Option String} :
    ∀ (items : List RawItem) (i : Nat),
      (mkFeatures start nid src bid i items).length = items.length
  | [], _ => rfl
  | _ :: rest, i => by simp [mkFeatures, mkFeatures_length rest (i + 1)]

theorem mkFeatures_getElem {start : Int} {nid : Nat} {src : String}
    {bid : Option String} :
    ∀ (items : List RawItem) (i j : Nat) (h : j < items.length)
      (h' : j < (mkFeatures start nid src bid i items).length),
      (mkFeatures start nid src bid i items).get ⟨j, h'⟩
        = mkFeature start nid src bid (i + j) (items.get ⟨j, h⟩) := by
  intro items
  induction items with
  | nil => intro i j h h'; cases h
  | cons it rest ih =>
    intro i j h h'
    cases j with
    | zero => simp [mkFeatures]
    | succ k =>
      have hk : k < rest.length := Nat.lt_of_succ_lt_succ h
      have hk' : k < (mkFeatures start nid src bid (i + 1) rest).length := by
        rw [mkFeatures_length]; exact hk
      show (mkFeatures start nid src bid (i + 1) rest).get ⟨k, hk'⟩ = _
      rw [ih (i + 1) k hk hk']
      have : i + 1 + k = i + (k + 1) := by omega
      rw [this]
      rfl

theorem mkFeatures_passes {start : Int} {nid : Nat} {src : String}
    {bid : Option String} :
    ∀ (items : List RawItem) (i : Nat),
      ∀ f ∈ mkFeatures start nid src bid i items, f.passes = false := by
  intro items
  induction items with
  | nil => intro i f hf; cases hf
  | cons it rest ih =>
    intro i f hf
    rcases List.mem_cons.1 hf with rfl | hf'
    · rfl
    · exact ih (i + 1) f hf'

theorem mkFeatures_priority_mem {start : Int} {nid : Nat} {src : String}
    {bid : Option String} :
    ∀ (items : List RawItem) (i : Nat) (f : Feature),
      f ∈ mkFeatures start nid src bid i items →
        ∃ j, j < items.length ∧ f.priority = start + i + j := by
  intro items
  induction items with
  | nil => intro i f hf; cases hf
  | cons it rest ih =>
    intro i f hf
    rcases List.mem_cons.1 hf with rfl | hf'
    · exact ⟨0, by simp, by simp [mkFeature]⟩
    · obtain ⟨j, hj, hp⟩ := ih (i + 1) f hf'
      exact ⟨j + 1, by simp only [List.length_cons]; omega,
        by rw [hp]; push_cast; ring⟩

theorem firstInvalid_eq_none_iff {items : List RawItem} :
    firstInvalid items = none ↔ ∀ it ∈ items, validItem it = true := by
  induction items with
  | nil => simp [firstInvalid]
  | cons it rest ih =>
    by_cases h : validItem it <;>
      simp [firstInvalid, h, Option.map_eq_none', ih]

theorem firstInvalid_eq_some_of :
    ∀ {items : List RawItem} {i : Nat} (hi : i < items.length),
      validItem (items.get ⟨i, hi⟩) = false →
      (∀ k (hk : k < i), validItem (items.get ⟨k, Nat.lt_trans hk hi⟩) = true) →
      firstInvalid items = some i := by
  intro items
  induction items with
  | nil => intro i hi; cases hi
  | cons it rest ih =>
    intro i hi hbad hgood
    cases i with
    | zero =>
      have : validItem it = false := hbad
      simp [firstInvalid, this]
    | succ j =>
      have h0 : validItem it = true := hgood 0 (Nat.succ_pos j)
      have hj : j < rest.length := Nat.lt_of_succ_lt_succ hi
      have hbad' : validItem (rest.get ⟨j, hj⟩) = false := hbad
      have hgood' : ∀ k (hk : k < j),
          validItem (rest.get ⟨k, Nat.lt_trans hk hj⟩) = true := by
        intro k hk
        exact hgood (k + 1) (Nat.succ_lt_succ hk)
      simp [firstInvalid, h0, ih hj hbad' hgood']

/-! ## Concrete rows used by the witnesses (the spec's §8 example:
A(priority=5, pending), B(priority=2, pending), C(priority=8, passing)) -/

/-- Witness row A. -/
def wA : Feature :=
  ⟨1, 5, "ui", "A", "descA", ["step"], false, "initializer", none⟩

/-- Witness row B. -/
def wB : Feature :=
  ⟨2, 2, "ui", "B", "descB", ["step"], false, "initializer", none⟩

/-- Witness row C. -/
def wC : Feature :=
  ⟨3, 8, "api", "C", "descC", ["step"], true, "enhancement", some "b1"⟩

/-- Witness store. -/
def wStore : Store := [wA, wB, wC]

/-- A passing row of the store exhibiting the stats float divergence. -/
def statsRowPass : Feature := ⟨1, 1, "c", "n", "d", [], true, "s", none⟩

/-- A pending row of the store exhibiting the stats float divergence. -/
def statsRowPend : Feature := ⟨2, 1, "c", "n", "d", [], false, "s", none⟩

/-- 2000 rows with exactly one passing: the smallest store at which the
program's float percentage pipeline and exact decimal rounding of
`passing/total × 100` disagree (`1/2000 × 100` is the tie `0.05`, but
the double computed for it lies strictly above the tie). -/
def statsStore : Store := statsRowPass :: List.replicate 1999 statsRowPend

/-! ## Claims -/

/-- C1: `feature_get_next` returns "no work remaining" iff no feature
with `passes=false` exists; otherwise it returns a pending feature that
strictly minimizes `(priority, id)` among pending features; and the
returned feature is determined by the state — any pending feature that
is `(priority, id)`-below all pending features is the one returned, so
repeated calls on an unchanged store return the same feature. -/
theorem get_next_spec (store : Store) (hnd : (store.map Feature.id).Nodup) :
    (feature_get_next store = none ↔ ∀ f ∈ store, f.passes = true)
    ∧ (∀ f, feature_get_next store = some f →
        f ∈ store ∧ f.passes = false ∧
          ∀ g ∈ store, g.passes = false → g ≠ f →
            (f.priority < g.priority ∨ (f.priority = g.priority ∧ f.id < g.id)))
    ∧ (∀ f, f ∈ store → f.passes = false →
        (∀ g ∈ store, g.passes = false → keyLE f g) →
        feature_get_next store = some f) := by
  have hnone : feature_get_next store = none ↔ ∀ f ∈ store, f.passes = true := by
    rw [feature_get_next, head_insertionSort_eq_none, pendingRows,
      List.filter_eq_nil_iff]
    simp
  have hmin : ∀ f, feature_get_next store = some f →
      f ∈ store ∧ f.passes = false ∧ ∀ g ∈ store, g.passes = false → keyLE f g := by
    intro f hf
    obtain ⟨hmem, hle⟩ := head_insertionSort (l := pendingRows store) hf
    obtain ⟨hmem', hpass⟩ := mem_pendingRows.1 hmem
    exact ⟨hmem', hpass, fun g hg hgp => hle g (mem_pendingRows.2 ⟨hg, hgp⟩)⟩
  refine ⟨hnone, fun f hf => ?_, fun f hf hfp hbelow => ?_⟩
  · obtain ⟨h1, h2, h3⟩ := hmin f hf
    refine ⟨h1, h2, fun g hg hgp hne => ?_⟩
    have hk := h3 g hg hgp
    have hid : f.id ≠ g.id := fun hidq => hne (eq_of_id_eq hnd hg h1 hidq.symm)
    rw [keyLE] at hk
    omega
  · cases hgn : feature_get_next store with
    | none => exact absurd (hnone.1 hgn f hf) (by simp [hfp])
    | some h =>
      obtain ⟨h1, h2, h3⟩ := hmin h hgn
      by_cases heq : h = f
      · rw [heq]
      · exfalso
        have hk1 := h3 f hf hfp
        have hk2 := hbelow h h1 h2
        have hid : h.id ≠ f.id := fun hidq => heq (eq_of_id_eq hnd h1 hf hidq)
        rw [keyLE] at hk1 hk2
        omega

/-- C1 witness: on the spec's example store, `feature_get_next` returns
B, the pending feature with the smallest `(priority, id)`. -/
theorem get_next_spec_witness : feature_get_next wStore = some wB :=
  (get_next_spec wStore (by decide)).2.2 wB (by decide) (by decide) (by decide)

/-- C2: `feature_skip` returns NotFound when no feature carries the id,
leaving the store unchanged; returns InvalidState on a passing feature,
leaving the store unchanged; and on a pending feature sets its priority
to `1 + max(priority over ALL features)` — `M` below bounds every row,
passing included — returning `{id, name, old_priority, new_priority}`
and touching no other field and no other feature. -/
theorem skip_spec (store : Store) (fid : Nat)
    (hnd : (store.map Feature.id).Nodup) :
    ((∀ f ∈ store, f.id ≠ fid) → feature_skip store fid = (.notFound, store))
    ∧ (∀ f ∈ store, f.id = fid → f.passes = true →
        feature_skip store fid = (.invalidState, store))
    ∧ (∀ f ∈ store, f.id = fid → f.passes = false →
        ∀ M, maxPriority store = some M →
          (∀ g ∈ store, g.priority ≤ M) ∧
          feature_skip store fid =
            (.ok f.id f.name f.priority (M + 1),
             store.map (fun g =>
               if g.id == fid then { g with priority := M + 1 } else g))) := by
  refine ⟨fun habs => ?_, fun f hf hid hpass => ?_, fun f hf hid hpend M hM => ?_⟩
  · rw [feature_skip, find_id_eq_none habs]
  · rw [feature_skip, find_id_eq_some hnd hf hid]
    simp [hpass]
  · refine ⟨fun g hg => le_maxPriority hg hM, ?_⟩
    rw [feature_skip, find_id_eq_some hnd hf hid]
    simp [hpend, hM]

/-- C2 witness: skipping pending feature B in the spec's example store
moves it to priority 9 = 1 + max(5, 2, 8), and every other row is
untouched. -/
theorem skip_spec_witness :
    feature_skip wStore 2 =
      (.ok 2 "B" 2 9, [wA, { wB with priority := 9 }, wC]) := by
  have h := ((skip_spec wStore 2 (by decide)).2.2 wB (by decide) (by decide)
    (by decide) 8 (by decide)).2
  rw [h]
  decide

/-- C6: `feature_mark_passing` returns NotFound when the id is absent
(store unchanged); otherwise sets `passes := true` on the row, returns
the updated record, and is idempotent — the second call on the same id
succeeds again with `passes = true` and changes nothing. -/
theorem mark_passing_spec (store : Store) (fid : Nat)
    (hnd : (store.map Feature.id).Nodup) :
    ((∀ f ∈ store, f.id ≠ fid) →
        feature_mark_passing store fid = (.notFound, store))
    ∧ (∀ f ∈ store, f.id = fid →
        feature_mark_passing store fid =
          (.ok { f with passes := true },
           store.map (fun g =>
             if g.id == fid then { g with passes := true } else g))
        ∧ feature_mark_passing (feature_mark_passing store fid).2 fid =
            (.ok { f with passes := true },
             (feature_mark_passing store fid).2)) := by
  have hfirst : ∀ f ∈ store, f.id = fid →
      feature_mark_passing store fid =
        (.ok { f with passes := true },
         store.map (fun g =>
           if g.id == fid then { g with passes := true } else g)) := by
    intro f hf hid
    rw [feature_mark_passing, find_id_eq_some hnd hf hid]
  refine ⟨fun habs => ?_, fun f hf hid => ⟨hfirst f hf hid, ?_⟩⟩
  · rw [feature_mark_passing, find_id_eq_none habs]
  · rw [hfirst f hf hid]
    have hnd' : ((store.map (fun g =>
        if g.id == fid then { g with passes := true } else g)).map
          Feature.id).Nodup := by
      rw [List.map_map]
      have : (Feature.id ∘ fun g =>
          if g.id == fid then { g with passes := true } else g) = Feature.id := by
        funext g
        by_cases h : g.id = fid <;> simp [h]
      rw [this]
      exact hnd
    have hmem : ({ f with passes := true } : Feature) ∈
        store.map (fun g => if g.id == fid then { g with passes := true } else g) := by
      refine List.mem_map.2 ⟨f, hf, ?_⟩
      simp [hid]
    have hfind := find_id_eq_some hnd' hmem (by simpa using hid)
    rw [feature_mark_passing, hfind]
    have hmap : (store.map (fun g =>
          if g.id == fid then { g with passes := true } else g)).map
        (fun g => if g.id == fid then { g with passes := true } else g) =
        store.map (fun g => if g.id == fid then { g with passes := true } else g) := by
      rw [List.map_map]
      apply List.map_congr_left
      intro g _
      by_cases h : g.id = fid <;> simp [h]
    rw [hmap]

/-- C6 witness: marking pending feature A passing succeeds, and a second
call on the same id succeeds again with `passes = true`, changing
nothing. -/
theorem mark_passing_spec_witness :
    feature_mark_passing wStore 1 =
      (.ok { wA with passes := true },
       [{ wA with passes := true }, wB, wC])
    ∧ feature_mark_passing (feature_mark_passing wStore 1).2 1 =
        (.ok { wA with passes := true }, (feature_mark_passing wStore 1).2) := by
  have h := (mark_passing_spec wStore 1 (by decide)).2 wA (by decide) (by decide)
  exact ⟨by rw [h.1]; decide, h.2⟩

/-- One tool invocation never resets `passes`: a passing row survives
(same id, still passing). -/
theorem applyOp_preserves_passing (op : Op) (store : Store) (f : Feature)
    (hf : f ∈ store) (hp : f.passes = true) :
    ∃ f', f' ∈ applyOp store op ∧ f'.id = f.id ∧ f'.passes = true := by
  cases op with
  | getStats => exact ⟨f, hf, rfl, hp⟩
  | getNext => exact ⟨f, hf, rfl, hp⟩
  | getForRegression limit => exact ⟨f, hf, rfl, hp⟩
  | getAllCategories => exact ⟨f, hf, rfl, hp⟩
  | getSummary => exact ⟨f, hf, rfl, hp⟩
  | search q limit => exact ⟨f, hf, rfl, hp⟩
  | markPassing fid =>
    simp only [applyOp, feature_mark_passing]
    cases hfind : store.find? (fun x => x.id == fid) with
    | none => exact ⟨f, hf, rfl, hp⟩
    | some g =>
      refine ⟨if f.id == fid then { f with passes := true } else f,
        List.mem_map_of_mem _ hf, ?_, ?_⟩
      · by_cases h : f.id = fid <;> simp [h]
      · by_cases h : f.id = fid <;> simp [h, hp]
  | skip fid =>
    simp only [applyOp, feature_skip]
    cases hfind : store.find? (fun x => x.id == fid) with
    | none => exact ⟨f, hf, rfl, hp⟩
    | some g =>
      by_cases hg : g.passes
      · simp only [hg, if_true]
        exact ⟨f, hf, rfl, hp⟩
      · simp only [hg, if_false]
        refine ⟨if f.id == fid
            then { f with priority :=
              (match maxPriority store with | some m => m + 1 | none => 1) }
            else f,
          List.mem_map_of_mem _ hf, ?_, ?_⟩
        · by_cases h : f.id = fid <;> simp [h]
        · by_cases h : f.id = fid <;> simp [h, hp]
  | createBulk items mode source bid nid =>
    simp only [applyOp, feature_create_bulk]
    cases hv : firstInvalid items with
    | some i => exact ⟨f, hf, rfl, hp⟩
    | none => exact ⟨f, List.mem_append_left _ hf, rfl, hp⟩

/-- C7: Passing is terminal — across any sequence of core operations, a
feature that has `passes=true` keeps `passes=true`; no operation resets
it. -/
theorem passing_terminal (ops : List Op) (store : Store) (f : Feature)
    (hf : f ∈ store) (hp : f.passes = true) :
    ∃ f', f' ∈ applyOps store ops ∧ f'.id = f.id ∧ f'.passes = true := by
  induction ops generalizing store f with
  | nil => exact ⟨f, hf, rfl, hp⟩
  | cons op ops ih =>
    obtain ⟨f', hf', hid, hp'⟩ := applyOp_preserves_passing op store f hf hp
    obtain ⟨f'', hf'', hid', hp''⟩ := ih (applyOp store op) f' hf' hp'
    exact ⟨f'', by simpa [applyOps] using hf'', hid'.trans hid, hp''⟩

/-- C7 witness: the passing feature C survives a concrete sequence of a
mark, a skip, a search and a bulk create, still passing. -/
theorem passing_terminal_witness :
    ∃ f', f' ∈ applyOps wStore
        [.markPassing 1, .skip 2, .search "a" 10,
         .createBulk [⟨some "c", some "n", some "d", some ["s"]⟩]
           "append" "enhancement" (some "b2") 4] ∧
      f'.id = wC.id ∧ f'.passes = true :=
  passing_terminal _ wStore wC (by decide) (by decide)

/-- C8 as stated is false on the code: the program computes the
percentage in binary64 floats.  On a store of 2000 rows with exactly one
passing, `(1/2000) * 100` rounds (twice, once per float operation) to a
double strictly above the decimal tie `0.05`, so the program returns
`0.1`, while exact rounding `round(1/2000 × 100, 1)` with ties to even
gives `0.0`. -/
theorem get_stats_counterexample :
    (feature_get_stats statsStore).passing = 1
    ∧ (feature_get_stats statsStore).total = 2000
    ∧ (feature_get_stats statsStore).percentage = 1 / 10
    ∧ round1 ((((feature_get_stats statsStore).passing : ℚ)
        / ((feature_get_stats statsStore).total : ℚ)) * 100) = 0
    ∧ (feature_get_stats statsStore).percentage
        ≠ round1 ((((feature_get_stats statsStore).passing : ℚ)
            / ((feature_get_stats statsStore).total : ℚ)) * 100) := by
  have hfil : (statsStore.filter (fun f => f.passes)).length = 1 := by
    have h1 : (List.replicate 1999 statsRowPend).filter (fun f => f.passes)
        = [] := by
      rw [List.filter_replicate]
      simp [statsRowPend]
    show ((statsRowPass :: List.replicate 1999 statsRowPend).filter
        (fun f => f.passes)).length = 1
    rw [List.filter_cons_of_pos (by simp [statsRowPass]), h1]
    rfl
  have hlen : statsStore.length = 2000 := by
    show (statsRowPass :: List.replicate 1999 statsRowPend).length = 2000
    rw [List.length_cons, List.length_replicate]
  have hpass : (feature_get_stats statsStore).passing = 1 := by
    simp [feature_get_stats, hfil]
  have htot : (feature_get_stats statsStore).total = 2000 := by
    simp [feature_get_stats, hlen]
  have hA : floatRound ((1 : ℚ) / 2000) = 4611686018427388 / 2 ^ 63 := by
    rw [floatRound_pos (by norm_num)
      (log2_eq_of_bounds (e := -11) (by norm_num) (by norm_num))]
    rw [show ((1:ℚ)/2000) / 2 ^ ((-11 : ℤ) - 52)
        = 9223372036854775808 / 2000 from by norm_num]
    rw [roundHalfEven_eq_up (n := 4611686018427387)
      (by rw [Int.floor_eq_iff]; norm_num) (by norm_num)]
    norm_num
  have hB : floatRound ((4611686018427388 : ℚ) / 2 ^ 63 * 100)
      = 7205759403792794 / 2 ^ 57 := by
    rw [floatRound_pos (by positivity)
      (log2_eq_of_bounds (e := -5) (by norm_num) (by norm_num))]
    rw [show ((4611686018427388:ℚ) / 2 ^ 63 * 100) / 2 ^ ((-5 : ℤ) - 52)
        = 461168601842738800 / 64 from by norm_num]
    rw [roundHalfEven_eq_up (n := 7205759403792793)
      (by rw [Int.floor_eq_iff]; norm_num) (by norm_num)]
    norm_num
  have hC : round1 ((7205759403792794 : ℚ) / 2 ^ 57) = 1 / 10 := by
    rw [round1]
    rw [show (7205759403792794:ℚ) / 2 ^ 57 * 10
        = 72057594037927940 / 144115188075855872 from by norm_num]
    rw [roundHalfEven_eq_up (n := 0)
      (by rw [Int.floor_eq_iff]; norm_num) (by norm_num)]
    norm_num
  have hpct : (feature_get_stats statsStore).percentage
      = round1 (floatRound (floatRound ((1 : ℚ) / 2000) * 100)) := by
    simp [feature_get_stats, hfil, hlen]
  have hval : (feature_get_stats statsStore).percentage = 1 / 10 := by
    rw [hpct, hA, hB, hC]
  have hexact : round1 ((((feature_get_stats statsStore).passing : ℚ)
      / ((feature_get_stats statsStore).total : ℚ)) * 100) = 0 := by
    rw [hpass, htot]
    rw [show (((1:ℕ):ℚ) / ((2000:ℕ):ℚ)) * 100 = 1/20 from by norm_num, round1]
    rw [show (1:ℚ)/20 * 10 = 1/2 from by norm_num]
    rw [roundHalfEven_tie_even (n := 0)
      (by rw [Int.floor_eq_iff]; norm_num) (by norm_num) (by decide)]
    norm_num
  refine ⟨hpass, htot, hval, hexact, ?_⟩
  rw [hval, hexact]
  norm_num

/-- C8 (amended): `feature_get_stats` reports the count of passing
features and the total count; the percentage is `0.0` on an empty store
and otherwise the 1-decimal rounding of the binary64 result of
`(passing / total) * 100` — the float pipeline the program runs, which
agrees with exact `round(passing/total × 100, 1)` except where float
rounding error crosses a decimal rounding boundary (as at 1 passing of
2000). -/
theorem get_stats_spec (store : Store) :
    (feature_get_stats store).total = store.length
    ∧ (feature_get_stats store).passing = store.countP (fun f => f.passes)
    ∧ (store.length = 0 → (feature_get_stats store).percentage = 0)
    ∧ (0 < store.length →
        (feature_get_stats store).percentage
          = round1 (floatRound (floatRound
              ((store.countP (fun f => f.passes) : ℚ)
                / (store.length : ℚ)) * 100))) := by
  refine ⟨rfl, ?_, fun h => ?_, fun h => ?_⟩
  · simp [feature_get_stats, List.countP_eq_length_filter]
  · simp [feature_get_stats, h]
  · simp [feature_get_stats, Nat.pos_iff_ne_zero.1 h,
      List.countP_eq_length_filter]

/-- C8 witness: on the example store (1 passing of 3), the float
pipeline yields `round(fl(fl(1/3) × 100), 1)` — concretely `33.3`, in
agreement with Python. -/
theorem get_stats_spec_witness :
    0 < wStore.length
    ∧ (feature_get_stats wStore).percentage
        = round1 (floatRound (floatRound
            ((wStore.countP (fun f => f.passes) : ℚ)
              / (wStore.length : ℚ)) * 100))
    ∧ (feature_get_stats wStore).percentage = 333 / 10 := by
  refine ⟨by decide, (get_stats_spec wStore).2.2.2 (by decide), ?_⟩
  have h1 : floatRound ((1 : ℚ) / 3) = 6004799503160661 / 2 ^ 54 := by
    rw [floatRound_pos (by norm_num)
      (log2_eq_of_bounds (e := -2) (by norm_num) (by norm_num))]
    rw [show ((1:ℚ)/3) / 2 ^ ((-2 : ℤ) - 52)
        = 18014398509481984 / 3 from by norm_num]
    rw [roundHalfEven_eq_down (n := 6004799503160661)
      (by rw [Int.floor_eq_iff]; norm_num) (by norm_num)]
    norm_num
  have h2 : floatRound ((6004799503160661 : ℚ) / 2 ^ 54 * 100)
      = 4691249611844266 / 2 ^ 47 := by
    rw [floatRound_pos (by positivity)
      (log2_eq_of_bounds (e := 5) (by norm_num) (by norm_num))]
    rw [show ((6004799503160661:ℚ) / 2 ^ 54 * 100) / 2 ^ ((5 : ℤ) - 52)
        = 600479950316066100 / 128 from by norm_num]
    rw [roundHalfEven_eq_down (n := 4691249611844266)
      (by rw [Int.floor_eq_iff]; norm_num) (by norm_num)]
    norm_num
  have h3 : round1 ((4691249611844266 : ℚ) / 2 ^ 47) = 333 / 10 := by
    rw [round1]
    rw [show (4691249611844266:ℚ) / 2 ^ 47 * 10
        = 46912496118442660 / 140737488355328 from by norm_num]
    rw [roundHalfEven_eq_down (n := 333)
      (by rw [Int.floor_eq_iff]; norm_num) (by norm_num)]
    norm_num
  have hfil : (wStore.filter (fun f => f.passes)).length = 1 := by decide
  have hlen : wStore.length = 3 := by decide
  have hpct : (feature_get_stats wStore).percentage
      = round1 (floatRound (floatRound ((1 : ℚ) / 3) * 100)) := by
    simp [feature_get_stats, hfil, hlen]
  rw [hpct, h1, h2, h3]

/-- C10: `feature_create_bulk` on an empty `features` list succeeds —
the Pydantic `BulkCreateInput` model demanding at least one item is
never applied to the tool's raw `list[dict]` argument — returning
`created = 0` with `start_priority` computed from the existing store
(max priority + 1 in append mode, 1 on an empty store) and adding no
features. -/
theorem create_bulk_empty_spec (store : Store) (src : String)
    (bid : Option String) (nid : Nat) :
    feature_create_bulk store [] "append" src bid nid
      = (.ok 0 (appendStart store), store)
    ∧ (∀ M, maxPriority store = some M → appendStart store = M + 1)
    ∧ (store = [] → appendStart store = 1) := by
  refine ⟨?_, fun M hM => ?_, fun h => ?_⟩
  · simp [feature_create_bulk, firstInvalid, mkFeatures, bulkStart]
  · simp [appendStart, hM]
  · subst h; rfl

/-- C10 witness: on the example store (max priority 8), the empty bulk
create returns `created = 0`, `start_priority = 9`, and changes
nothing. -/
theorem create_bulk_empty_spec_witness :
    feature_create_bulk wStore [] "append" "initializer" none 4
      = (.ok 0 (appendStart wStore), wStore)
    ∧ appendStart wStore = 8 + 1 :=
  ⟨(create_bulk_empty_spec wStore "initializer" none 4).1,
   (create_bulk_empty_spec wStore "initializer" none 4).2.1 8 (by decide)⟩

/-- A well-formed bulk-create item used by witnesses. -/
def wItem1 : RawItem := ⟨some "cat1", some "name1", some "desc1", some ["s1"]⟩

/-- Another well-formed bulk-create item used by witnesses. -/
def wItem2 : RawItem := ⟨some "cat2", some "name2", some "desc2", some ["s2"]⟩

/-- An item missing its `name` key, used by witnesses. -/
def wBadItem : RawItem := ⟨some "cat3", none, some "desc3", some ["s3"]⟩

/-- C4: a bulk create in which the item at index `i` is the first to
lack one of the keys category/name/description/steps aborts the whole
call atomically: it reports index `i` and the store is exactly what it
was before the call, whatever valid items preceded `i`. -/
theorem create_bulk_atomic (store : Store) (items : List RawItem)
    (mode src : String) (bid : Option String) (nid : Nat)
    (i : Nat) (hi : i < items.length)
    (hbad : validItem (items.get ⟨i, hi⟩) = false)
    (hgood : ∀ k (hk : k < i), validItem (items.get ⟨k, Nat.lt_trans hk hi⟩) = true) :
    feature_create_bulk store items mode src bid nid = (.error i, store) := by
  simp [feature_create_bulk, firstInvalid_eq_some_of hi hbad hgood]

/-- C4 witness: with a well-formed item at index 0 and an item missing
`name` at index 1, the call reports index 1 and the example store is
untouched. -/
theorem create_bulk_atomic_witness :
    feature_create_bulk wStore [wItem1, wBadItem] "append" "initializer" none 4
      = (.error 1, wStore) :=
  create_bulk_atomic wStore [wItem1, wBadItem] "append" "initializer" none 4
    1 (by decide) (by decide) (by decide)

/-- C5: a bulk create in append mode with well-formed items appends one
feature per item, the `j`-th receiving priority `start + j` in input
order where `start` is 1 + the maximum priority over all rows (1 on an
empty store), and every created feature starts `passes = false`. -/
theorem create_bulk_append_spec (store : Store) (items : List RawItem)
    (src : String) (bid : Option String) (nid : Nat)
    (hv : ∀ it ∈ items, validItem it = true) :
    feature_create_bulk store items "append" src bid nid
      = (.ok items.length (appendStart store),
         store ++ mkFeatures (appendStart store) nid src bid 0 items)
    ∧ (∀ M, maxPriority store = some M → appendStart store = M + 1)
    ∧ (store = [] → appendStart store = 1)
    ∧ (∀ j (hj : j < items.length)
        (hj' : j < (mkFeatures (appendStart store) nid src bid 0 items).length),
        ((mkFeatures (appendStart store) nid src bid 0 items).get ⟨j, hj'⟩).priority
          = appendStart store + j)
    ∧ (∀ f ∈ mkFeatures (appendStart store) nid src bid 0 items,
        f.passes = false) := by
  refine ⟨?_, fun M hM => by simp [appendStart, hM], fun h => by subst h; rfl,
    fun j hj hj' => ?_, mkFeatures_passes items 0⟩
  · simp [feature_create_bulk, firstInvalid_eq_none_iff.2 hv, bulkStart]
  · rw [mkFeatures_getElem items 0 j hj hj']
    simp [mkFeature]

/-- C5 witness: appending two items to the example store (max priority
8) creates them with start priority 9, in input order, pending. -/
theorem create_bulk_append_spec_witness :
    feature_create_bulk wStore [wItem1, wItem2] "append" "initializer"
        (some "b9") 4
      = (.ok 2 (appendStart wStore),
         wStore ++ mkFeatures (appendStart wStore) 4 "initializer" (some "b9") 0
           [wItem1, wItem2])
    ∧ appendStart wStore = 9 :=
  ⟨(create_bulk_append_spec wStore [wItem1, wItem2] "initializer" (some "b9") 4
      (by decide)).1,
   by decide⟩

/-- C3: a bulk create in prepend mode with well-formed items, when a
pending feature exists with minimum pending priority `P`, starts the
batch at `P - K`, gives the `j`-th item priority `P - K + j` in input
order, and places every created feature strictly before every existing
pending feature; with no pending feature the call coincides with append
mode. -/
theorem create_bulk_prepend_spec (store : Store) (items : List RawItem)
    (src : String) (bid : Option String) (nid : Nat)
    (hv : ∀ it ∈ items, validItem it = true) :
    (∀ P, minPendingPriority store = some P →
        feature_create_bulk store items "prepend" src bid nid
          = (.ok items.length (P - items.length),
             store ++ mkFeatures (P - items.length) nid src bid 0 items)
        ∧ (∀ j (hj : j < items.length)
            (hj' : j < (mkFeatures (P - items.length) nid src bid 0 items).length),
            ((mkFeatures (P - items.length) nid src bid 0 items).get ⟨j, hj'⟩).priority
              = P - items.length + j)
        ∧ (∀ f ∈ mkFeatures (P - items.length) nid src bid 0 items,
            ∀ g ∈ store, g.passes = false → f.priority < g.priority))
    ∧ (minPendingPriority store = none →
        feature_create_bulk store items "prepend" src bid nid
          = feature_create_bulk store items "append" src bid nid) := by
  constructor
  · intro P hP
    refine ⟨?_, fun j hj hj' => ?_, fun f hf g hg hgp => ?_⟩
    · simp [feature_create_bulk, firstInvalid_eq_none_iff.2 hv, bulkStart, hP]
    · rw [mkFeatures_getElem items 0 j hj hj']
      simp [mkFeature]
    · obtain ⟨j, hjlen, hjp⟩ := mkFeatures_priority_mem items 0 f hf
      have hgP := minPendingPriority_le hg hgp hP
      rw [hjp]
      push_cast
      omega
  · intro hnone
    simp [feature_create_bulk, bulkStart, hnone]

/-- C3 witness: prepending one item to the example store (pending
minimum priority 2, held by B) starts the batch at priority 1 = 2 - 1,
strictly before both pending rows. -/
theorem create_bulk_prepend_spec_witness :
    feature_create_bulk wStore [wItem1] "prepend" "initializer" none 4
      = (.ok 1 ((2 : Int) - ([wItem1] : List RawItem).length),
         wStore ++ mkFeatures ((2 : Int) - ([wItem1] : List RawItem).length) 4
           "initializer" none 0 [wItem1]) :=
  ((create_bulk_prepend_spec wStore [wItem1] "initializer" none 4
      (by decide)).1 2 (by decide)).1

/-! ## Search: the `ilike` filter vs. the spec's substring match -/

/-- From the spec's words: "case-insensitive substring match on name OR
description" — the query occurs in the field as a contiguous substring,
ignoring case.  Compared below against the `ilike`-based filter that the
code actually runs. -/
def ciContains (q s : String) : Prop :=
  q.data.map Char.toLower <:+: s.data.map Char.toLower

instance (q s : String) : Decidable (ciContains q s) :=
  List.decidableInfix _ _

theorem likeMatch_literal :
    ∀ (p : List Char), (∀ c ∈ p, c ≠ '%' ∧ c ≠ '_') →
      ∀ s, likeMatch p s = true ↔ p.map Char.toLower = s.map Char.toLower := by
  intro p
  induction p with
  | nil =>
    intro _ s
    cases s <;> simp [likeMatch]
  | cons c p ih =>
    intro hp s
    obtain ⟨hc1, hc2⟩ := hp c (List.mem_cons_self c p)
    cases s with
    | nil => simp [likeMatch, hc1]
    | cons d s' =>
      simp only [likeMatch, if_neg hc1, List.map_cons, List.cons.injEq]
      rw [Bool.and_eq_true, Bool.or_eq_true]
      rw [ih (fun x hx => hp x (List.mem_cons_of_mem c hx)) s']
      simp [hc2, ciEq]

theorem likeSuffix_iff (lm : List Char → Bool) :
    ∀ s, likeSuffix lm s = true ↔ ∃ t u, s = t ++ u ∧ lm u = true := by
  intro s
  induction s with
  | nil =>
    simp only [likeSuffix]
    constructor
    · intro h; exact ⟨[], [], rfl, h⟩
    · rintro ⟨t, u, ht, hu⟩
      obtain ⟨rfl, rfl⟩ := List.append_eq_nil.1 ht.symm
      exact hu
  | cons d s' ih =>
    simp only [likeSuffix, Bool.or_eq_true, ih]
    constructor
    · rintro (h | ⟨t, u, rfl, hu⟩)
      · exact ⟨[], d :: s', rfl, h⟩
      · exact ⟨d :: t, u, rfl, hu⟩
    · rintro ⟨t, u, ht, hu⟩
      cases t with
      | nil =>
        left
        simp only [List.nil_append] at ht
        exact ht ▸ hu
      | cons x t' =>
        right
        injection ht with h1 h2
        exact ⟨t', u, h2, hu⟩

theorem likeMatch_trailing :
    ∀ (p : List Char), (∀ c ∈ p, c ≠ '%' ∧ c ≠ '_') →
      ∀ s, likeMatch (p ++ ['%']) s = true ↔
        p.map Char.toLower <+: s.map Char.toLower := by
  intro p
  induction p with
  | nil =>
    intro _ s
    have hL : likeMatch (([] : List Char) ++ ['%']) s
        = likeSuffix (likeMatch []) s := rfl
    rw [hL, likeSuffix_iff]
    constructor
    · intro _
      exact List.nil_prefix
    · intro _
      exact ⟨s, [], by simp, rfl⟩
  | cons c p ih =>
    intro hp s
    obtain ⟨hc1, hc2⟩ := hp c (List.mem_cons_self c p)
    cases s with
    | nil => simp [likeMatch, hc1]
    | cons d s' =>
      simp only [List.cons_append, likeMatch, if_neg hc1, List.map_cons,
        List.append_eq]
      rw [Bool.and_eq_true, Bool.or_eq_true]
      rw [ih (fun x hx => hp x (List.mem_cons_of_mem c hx)) s']
      rw [List.cons_prefix_cons]
      simp [hc2, ciEq]

theorem likeMatch_pattern_iff (q : String)
    (hq : ∀ c ∈ q.data, c ≠ '%' ∧ c ≠ '_') (s : List Char) :
    likeMatch (likePattern q) s = true ↔
      q.data.map Char.toLower <:+: s.map Char.toLower := by
  have hstep : likeMatch (likePattern q) s
      = likeSuffix (likeMatch (q.data ++ ['%'])) s := by
    simp [likePattern, likeMatch]
  rw [hstep, likeSuffix_iff]
  constructor
  · rintro ⟨t, u, rfl, hu⟩
    rw [likeMatch_trailing q.data hq u] at hu
    obtain ⟨v, hv⟩ := hu
    exact ⟨t.map Char.toLower, v, by rw [List.map_append, ← hv, List.append_assoc]⟩
  · rintro ⟨a, b, hab⟩
    refine ⟨s.take a.length, s.drop a.length, (List.take_append_drop _ s).symm, ?_⟩
    rw [likeMatch_trailing q.data hq]
    refine ⟨b, ?_⟩
    rw [List.map_drop, ← hab]
    have : a ++ q.data.map Char.toLower ++ b
        = a ++ (q.data.map Char.toLower ++ b) := by
      rw [List.append_assoc]
    rw [this, List.drop_left]

/-- The filter the code runs (`ilike` with the `%`-wrapped query) agrees
with the spec's case-insensitive substring match whenever the query is
free of the LIKE wildcards `%` and `_`. -/
theorem matchesQuery_iff (q : String)
    (hq : ∀ c ∈ q.data, c ≠ '%' ∧ c ≠ '_') (f : Feature) :
    matchesQuery q f = true ↔
      ciContains q f.name ∨ ciContains q f.description := by
  rw [matchesQuery, Bool.or_eq_true, likeMatch_pattern_iff q hq,
    likeMatch_pattern_iff q hq]
  exact Iff.rfl

/-- C9 as stated is false on the code: LIKE wildcards in the query are
live.  With a single feature named "ab" (description "cd") and the
query "_", `feature_search` returns the feature although "_" is not a
case-insensitive substring of either field. -/
theorem search_counterexample :
    (feature_search [⟨1, 1, "c", "ab", "cd", [], false, "s", none⟩] "_" 10).1
      = [⟨1, "ab", "c", false⟩]
    ∧ ¬ ciContains "_" "ab" ∧ ¬ ciContains "_" "cd" :=
  ⟨by decide, by decide, by decide⟩

/-- C9 (amended): for every query free of the LIKE wildcard characters
`%` and `_`, and every limit in [1, 50], `feature_search` returns
features whose name or description contains the query as a
case-insensitive substring, ordered by ascending priority, truncated to
at most `limit` results, each rendered as `{id, name, category,
passes}`, with the reported count equal to the number of returned rows;
when fewer than `limit` rows are returned, every matching feature is
among them. -/
theorem search_spec (store : Store) (q : String) (limit : Nat)
    (hq : ∀ c ∈ q.data, c ≠ '%' ∧ c ≠ '_')
    (h1 : 1 ≤ limit) (h50 : limit ≤ 50) :
    ∃ fs : List Feature,
      feature_search store q limit = (fs.map renderRow, fs.length)
      ∧ fs.Sorted prioLE
      ∧ (∀ f ∈ fs, f ∈ store ∧ (ciContains q f.name ∨ ciContains q f.description))
      ∧ fs.length = min (store.countP
          (fun f => decide (ciContains q f.name ∨ ciContains q f.description))) limit
      ∧ (fs.length < limit →
          ∀ f ∈ store, ciContains q f.name ∨ ciContains q f.description → f ∈ fs) := by
  refine ⟨((store.filter (matchesQuery q)).insertionSort prioLE).take limit,
    rfl, ?_, ?_, ?_, ?_⟩
  · exact (List.sorted_insertionSort prioLE _).sublist (List.take_sublist _ _)
  · intro f hf
    have hf' : f ∈ (store.filter (matchesQuery q)).insertionSort prioLE :=
      List.mem_of_mem_take hf
    have hfL : f ∈ store.filter (matchesQuery q) :=
      (List.perm_insertionSort prioLE _).subset hf'
    have := List.mem_filter.1 hfL
    exact ⟨this.1, (matchesQuery_iff q hq f).1 this.2⟩
  · have hfe : store.filter (matchesQuery q)
        = store.filter (fun f =>
            decide (ciContains q f.name ∨ ciContains q f.description)) :=
      List.filter_congr (fun f _ => Bool.eq_iff_iff.2 (by
        rw [matchesQuery_iff q hq f, decide_eq_true_eq]))
    rw [List.length_take, List.length_insertionSort, hfe,
      ← List.countP_eq_length_filter, Nat.min_comm]
  · intro hlen f hfmem hfmatch
    have hSle : ((store.filter (matchesQuery q)).insertionSort prioLE).length
        ≤ limit := by
      by_contra hgt
      push_neg at hgt
      rw [List.length_take] at hlen
      omega
    rw [List.take_of_length_le hSle]
    exact (List.perm_insertionSort prioLE _).mem_iff.2
      (List.mem_filter.2 ⟨hfmem, (matchesQuery_iff q hq f).2 hfmatch⟩)

/-- C9 witness: the wildcard-free query "b" on the example store with
limit 10. -/
theorem search_spec_witness :
    ∃ fs : List Feature,
      feature_search wStore "b" 10 = (fs.map renderRow, fs.length)
      ∧ fs.Sorted prioLE
      ∧ (∀ f ∈ fs, f ∈ wStore
          ∧ (ciContains "b" f.name ∨ ciContains "b" f.description))
      ∧ fs.length = min (wStore.countP
          (fun f => decide (ciContains "b" f.name ∨ ciContains "b" f.description))) 10
      ∧ (fs.length < 10 →
          ∀ f ∈ wStore, ciContains "b" f.name ∨ ciContains "b" f.description →
            f ∈ fs) :=
  search_spec wStore "b" 10 (by decide) (by decide) (by decide)

end FeatureMCP
